import Mathlib

/-!
# Verification of the Vericore weight-allocation pipeline

This development formalises the per-epoch incentive-allocation computation of
the repository: the function that turns a vector of per-uid performance scores
into a vector of per-uid integer weights, subject to a fixed burn allocation,
a flat base pool, a score-driven remainder pool, exclusion of validators and
banned hotkeys, and an exact-sum quantization step.

The allocation module itself (`validator/validator_daemon.py`) is not present
in the source tree; only its unit-test suite
(`src/tests/unit_tests/test_distribute_weights_burn_base_remainder.py`) is.
The definitions below are therefore modelled from the specification
(sections 3, 4, 6, 7 of the spec), with the unit tests used as the authority
wherever they pin concrete behavior.  Real-valued arithmetic of the original
program is embedded as exact rational arithmetic over `Rat`.
-/

/-- Modelled from the spec: a registry participant.  The spec's `NeuronRecord`
is `{uid, hotkey, validator_permit}`; the uid is the record's position in the
registry sequence, so it is represented by the list index and not duplicated
as a field. -/
structure NeuronRecord where
  hotkey : String
  validator_permit : Bool
deriving DecidableEq, Inhabited

/-- Modelled from the spec: the registry snapshot is an ordered sequence of
neuron records; uid `i` is position `i`. -/
abbrev Metagraph := List NeuronRecord

/-- Modelled from the spec: the fixed total weight budget, 65535 in the
observed configuration (`DEFAULT_TOTAL_WEIGHT` in the missing daemon module). -/
def DEFAULT_TOTAL_WEIGHT : ℚ := 65535

/-- Modelled from the spec: the burn fraction `EMISSION_CONTROL_PERC`,
observed value 0.80. -/
def EMISSION_CONTROL_PERC : ℚ := 0.8

/-- Modelled from the spec: the flat-base fraction `BASE_WEIGHT_FRACTION`,
observed value 0.01 (so that `base_pool / 255 ≈ 2.56` as the tests check). -/
def BASE_WEIGHT_FRACTION : ℚ := 0.01

/-- Modelled from the spec: the configured burn-target hotkey string.  Its
concrete value is irrelevant to every property below; theorems refer to this
constant symbolically. -/
def EMISSION_CONTROL_HOTKEY : String := "emission_control_hotkey"

/-- Modelled from the spec: the policy toggle between the ranking and the
score-proportional ScoreConverter mode.  The spec leaves the deployed formula
open and instructs implementers to pick a concrete policy satisfying the
normalization/monotonicity/determinism contract; this model fixes the
score-proportional policy. -/
def USE_RANKING_EMISSION_CONTROL : Bool := false

/-- Modelled from the spec: the pipeline toggle `ENABLE_EMISSION_CONTROL`
(configuration constant, externally supplied; the orchestrator receives it as
a parameter in this model). -/
def ENABLE_EMISSION_CONTROL : Bool := true

/-- Modelled from the spec: resolve a hotkey to the uid of the first neuron
carrying it, or `none` when the hotkey is absent from the registry
(`find_target_uid` in the missing daemon module). -/
def find_target_uid : Metagraph → String → Option Nat
  | [], _ => none
  | nr :: rest, hk =>
      if nr.hotkey = hk then some 0 else (find_target_uid rest hk).map (· + 1)

/-- Modelled from the spec: score-proportional normalized shares of a score
vector; each entry is its score divided by the total, with uniform shares when
the total is zero.  This is the concrete score-proportional ScoreConverter
policy (the spec specifies only the normalization / non-negativity /
monotonicity / determinism contract and leaves the exact formula open). -/
def proportionalShares (s : List ℚ) : List ℚ :=
  if s.sum = 0 then s.map (fun _ => 1 / (s.length : ℚ))
  else s.map (fun x => x / s.sum)

/-- Modelled from the spec: the rank of position `i` in a score vector, used
by the ranking ScoreConverter policy: one plus the number of strictly smaller
scores plus the number of earlier equal scores (ties broken by ascending
uid). -/
def rankAt (s : List ℚ) (i : Nat) : ℕ :=
  (s.filter (fun x => decide (x < s.getD i 0))).length +
    ((s.take (i + 1)).filter (fun x => decide (x = s.getD i 0))).length

/-- Modelled from the spec: rank-linear normalized shares (the ranking
ScoreConverter policy): each entry's rank divided by the sum of all ranks. -/
def rankingShares (s : List ℚ) : List ℚ :=
  let ranks := (List.range s.length).map (fun i => (rankAt s i : ℚ))
  ranks.map (fun r => r / ranks.sum)

/-- Modelled from the spec: the legacy ScoreConverter entry point
(`convert_scores_to_weights` in the missing daemon module): normalized shares
of the full score vector scaled by the total budget, under the selected
policy.  The unit tests pin its output to sum to `DEFAULT_TOTAL_WEIGHT`. -/
def convert_scores_to_weights (s : List ℚ) (use_ranking : Bool) : List ℚ :=
  (if use_ranking then rankingShares s else proportionalShares s).map
    (fun x => x * DEFAULT_TOTAL_WEIGHT)

/-- Modelled from the spec: the resolved burn target of a registry
(`BurnTarget` of the spec): the configured burn hotkey looked up in the
snapshot. -/
def burnUidOf (mg : Metagraph) : Option Nat :=
  find_target_uid mg EMISSION_CONTROL_HOTKEY

/-- Modelled from the spec: eligibility classification of uid `i` as a miner.
A uid is an eligible miner when it exists in the registry, is not the burn
target (burn-target status takes precedence), has no validator permit, and its
hotkey is not banned. -/
def isEligibleMiner (mg : Metagraph) (banned : List String) (burn? : Option Nat)
    (i : Nat) : Bool :=
  match mg.get? i with
  | some nr =>
      decide (burn? ≠ some i) && !nr.validator_permit &&
        decide (¬ nr.hotkey ∈ banned)
  | none => false

/-- Modelled from the spec: the ascending list of eligible miner uids. -/
def minersOf (mg : Metagraph) (banned : List String) : List Nat :=
  (List.range mg.length).filter (isEligibleMiner mg banned (burnUidOf mg))

/-- Modelled from the spec: the integer burn allocation, carved out before any
other distribution: `round(EMISSION_CONTROL_PERC * TOTAL_WEIGHT)` when the
burn target resolves, zero otherwise. -/
def burnWOf (mg : Metagraph) : ℤ :=
  if (burnUidOf mg).isSome then round (EMISSION_CONTROL_PERC * DEFAULT_TOTAL_WEIGHT)
  else 0

/-- Modelled from the spec: the residual integer budget flowing into the
base/remainder stage: the total budget minus the burn allocation. -/
def residualOf (mg : Metagraph) : ℤ :=
  ⌊DEFAULT_TOTAL_WEIGHT⌋ - burnWOf mg

/-- Modelled from the spec: the share of the remainder pool assigned to miner
uid `i`: the score-proportional ScoreConverter restricted to the eligible
miners' scores, written as the share of uid `i` directly (score of `i` over
the total eligible-miner score, uniform when that total is zero). -/
def minerShare (s : List ℚ) (miners : List Nat) (i : Nat) : ℚ :=
  if (miners.map (fun j => s.getD j 0)).sum = 0 then 1 / (miners.length : ℚ)
  else s.getD i 0 / (miners.map (fun j => s.getD j 0)).sum

/-- Modelled from the spec: the real-valued allocation of miner uid `i`: the
flat base amount `base_pool / n_miners` plus its share of the remainder pool
`residual − base_pool` (clamped at zero). -/
def minerValue (s : List ℚ) (miners : List Nat) (residual : ℚ) (i : Nat) : ℚ :=
  BASE_WEIGHT_FRACTION * DEFAULT_TOTAL_WEIGHT / (miners.length : ℚ) +
    minerShare s miners i *
      max 0 (residual - BASE_WEIGHT_FRACTION * DEFAULT_TOTAL_WEIGHT)

/-- Modelled from the spec: the quantized (floored) weight of uid `i`: the
integer part of the real-valued allocation for eligible miners, zero for
everyone else.  The spec leaves the exact flooring/rounding rule open
(section 9) and requires the shortfall to be absorbed by the drift
correction. -/
def qOf (s : List ℚ) (mg : Metagraph) (banned : List String) (i : Nat) : ℤ :=
  if isEligibleMiner mg banned (burnUidOf mg) i then
    ⌊minerValue s (minersOf mg banned) ((residualOf mg : ℤ) : ℚ) i⌋
  else 0

/-- Modelled from the spec: the sum of all quantized miner weights. -/
def sumQOf (s : List ℚ) (mg : Metagraph) (banned : List String) : ℤ :=
  ((List.range mg.length).map (qOf s mg banned)).sum

/-- Modelled from the spec: the rounding drift: what is missing from the
residual budget after quantization.  With floor quantization the drift is
always non-negative. -/
def diffOf (s : List ℚ) (mg : Metagraph) (banned : List String) : ℤ :=
  residualOf mg - sumQOf s mg banned

/-- Modelled from the spec: one comparison step of the drift-target scan:
keep the incumbent unless the candidate has a strictly higher score. -/
def topStep (s : List ℚ) (b i : Nat) : Nat :=
  if s.getD b 0 < s.getD i 0 then i else b

/-- Modelled from the spec: the eligible miner receiving the drift correction:
the highest-scored miner, ties broken by the lowest uid (the spec requires the
drift to land on exactly one eligible miner uid and never on the burn uid). -/
def topMinerOf (s : List ℚ) (miners : List Nat) : Nat :=
  miners.foldl (topStep s) (miners.headD 0)

/-- Modelled from the spec: the final integer weight of uid `i` in the main
(at least one eligible miner) branch: the burn allocation at the burn uid, and
the quantized allocation plus the drift correction at the correction uid
elsewhere. -/
def finalEntry (s : List ℚ) (mg : Metagraph) (banned : List String) (i : Nat) : ℤ :=
  if burnUidOf mg = some i then burnWOf mg
  else qOf s mg banned i +
    (if i = topMinerOf s (minersOf mg banned) then diffOf s mg banned else 0)

/-- Modelled from the spec: the error surfaced by the allocation call; the
only fatal error is a score vector whose length does not match the registry
size. -/
inductive AllocError where
  | inputMismatch
deriving DecidableEq

/-- Modelled from the spec: the burn → base → remainder distribution
(`distribute_weights_burn_base_remainder` in the missing daemon module).
Fails with `InputMismatch` on a length mismatch.  With no eligible miner the
entire budget goes to the burn target when one resolves and the output is
all-zero otherwise; with at least one eligible miner every uid receives its
`finalEntry` weight. -/
def distribute_weights_burn_base_remainder (s : List ℚ) (mg : Metagraph)
    (banned : List String) : Except AllocError (List ℤ) :=
  if s.length ≠ mg.length then .error .inputMismatch
  else if minersOf mg banned = [] then
    match burnUidOf mg with
    | some b =>
        .ok ((List.range mg.length).map fun i => if i = b then (65535 : ℤ) else 0)
    | none => .ok (List.replicate mg.length 0)
  else .ok ((List.range mg.length).map (finalEntry s mg banned))

/-- Modelled from the spec: the legacy burn computation, transcribed from the
unit-test helper `_burn_weights_old`: give `burn_perc` of the total to the
burn uid and split the rest over the remaining uids proportionally to their
weights; return the input unchanged when the burn target does not resolve,
lies outside the vector, or the other uids carry no weight. -/
def burn_weights_old (weights : List ℚ) (mg : Metagraph) (burn_perc : ℚ) :
    List ℚ :=
  match find_target_uid mg EMISSION_CONTROL_HOTKEY with
  | none => weights
  | some t =>
      if weights.length ≤ t then weights
      else if weights.sum - weights.getD t 0 = 0 then weights
      else
        (List.range weights.length).map fun i =>
          if i = t then burn_perc * weights.sum
          else weights.getD i 0 / (weights.sum - weights.getD t 0)
            * ((1 - burn_perc) * weights.sum)

/-- Modelled from the spec: the orchestrator entry point
(`move_miner_weights` in the missing daemon module).  With emission control
enabled it runs the burn/base/remainder pipeline (the caller's own uid is
excluded from receiving weight; the exact mechanism is unspecified and is
modelled as zeroing the caller's score); with emission control disabled it is
the legacy pass-through: `convert_scores_to_weights` on the full score vector
with the configured policy toggle. -/
def move_miner_weights (s : List ℚ) (mg : Metagraph) (my_uid : Nat)
    (banned : List String) (enable_emission_control : Bool) :
    Except AllocError (List ℚ) :=
  if enable_emission_control then
    (distribute_weights_burn_base_remainder (s.set my_uid 0) mg banned).map
      (fun w => w.map (fun z => (z : ℚ)))
  else .ok (convert_scores_to_weights s USE_RANKING_EMISSION_CONTROL)

/-- Concrete registry fixture: burn hotkey at uid 0 plus two miners. -/
def mgBurnTwoMiners : Metagraph :=
  [⟨EMISSION_CONTROL_HOTKEY, false⟩, ⟨"h1", false⟩, ⟨"h2", false⟩]

/-- Concrete registry fixture: burn hotkey at uid 0 plus four miners. -/
def mgBurnFourMiners : Metagraph :=
  [⟨EMISSION_CONTROL_HOTKEY, false⟩, ⟨"h1", false⟩, ⟨"h2", false⟩,
    ⟨"h3", false⟩, ⟨"h4", false⟩]

/-- Concrete registry fixture: burn hotkey at uid 0 plus four validators
(scenario C of the spec). -/
def mgBurnFourValidators : Metagraph :=
  [⟨EMISSION_CONTROL_HOTKEY, false⟩, ⟨"h1", true⟩, ⟨"h2", true⟩,
    ⟨"h3", true⟩, ⟨"h4", true⟩]

/-- Concrete registry fixture: five miners, burn hotkey absent
(scenario B of the spec). -/
def mgFiveMiners : Metagraph :=
  [⟨"h0", false⟩, ⟨"h1", false⟩, ⟨"h2", false⟩, ⟨"h3", false⟩, ⟨"h4", false⟩]

/-- Concrete registry fixture: the burn hotkey carries a validator permit;
one ordinary miner besides it. -/
def mgValidatorBurn : Metagraph :=
  [⟨EMISSION_CONTROL_HOTKEY, true⟩, ⟨"h1", false⟩]

/-- Concrete registry fixture: burn hotkey at uid 0 and a single validator,
so no eligible miner exists although the burn target resolves. -/
def mgBurnOneValidator : Metagraph :=
  [⟨EMISSION_CONTROL_HOTKEY, false⟩, ⟨"h1", true⟩]

/-- Concrete registry fixture: two validators only, no burn hotkey, so
neither a burn target nor any eligible miner exists. -/
def mgTwoValidators : Metagraph :=
  [⟨"h0", true⟩, ⟨"h1", true⟩]

/-- Concrete registry fixture: 656 identical plain miners (burn hotkey
absent), the smallest registry size at which the flat base share
`base_pool / n_miners` drops below one weight unit. -/
def mgManyMiners : Metagraph := List.replicate 656 ⟨"m", false⟩

/-- Concrete score fixture for `mgManyMiners`: 655 unit scores followed by a
single zero score at uid 655. -/
def sManyMiners : List ℚ := List.replicate 655 1 ++ [0]

/-! ## Generic list lemmas -/

theorem list_range_map_sum {M : Type} [AddCommMonoid M] (f : ℕ → M) (n : ℕ) :
    ((List.range n).map f).sum = ∑ i ∈ Finset.range n, f i := by
  induction n with
  | zero => simp
  | succ n ih => rw [List.range_succ, Finset.sum_range_succ, ← ih]; simp

theorem sum_map_ite_filter {α M : Type} [AddCommMonoid M] (l : List α)
    (p : α → Bool) (f : α → M) :
    (l.map fun a => if p a then f a else 0).sum = ((l.filter p).map f).sum := by
  induction l with
  | nil => simp
  | cons x xs ih =>
      by_cases hx : p x
      · simp [List.filter_cons, hx, ih]
      · simp [List.filter_cons, hx, ih]

theorem sum_map_const {α M : Type} [AddCommMonoid M] (l : List α) (c : M) :
    (l.map fun _ => c).sum = l.length • c := by
  induction l with
  | nil => simp
  | cons x xs ih => simp [ih, succ_nsmul, add_comm]

theorem list_sum_map_div {α : Type} (l : List α) (f : α → ℚ) (c : ℚ) :
    (l.map fun a => f a / c).sum = (l.map f).sum / c := by
  simp only [div_eq_mul_inv]
  exact List.sum_map_mul_right l f c⁻¹

theorem getD_map_range {M : Type} {f : ℕ → M} {n i : ℕ} (h : i < n) {d : M} :
    (((List.range n).map f).getD i d) = f i := by
  rw [List.getD_eq_get?, List.get?_map, List.get?_range h]
  rfl

theorem getD_replicate {α : Type} {n i : ℕ} (h : i < n) (c d : α) :
    ((List.replicate n c).getD i d) = c := by
  induction n generalizing i with
  | zero => omega
  | succ n ih =>
      cases i with
      | zero => rfl
      | succ i => simpa [List.replicate_succ] using ih (by omega)

theorem get?_replicate_of_lt {α : Type} {n i : ℕ} (h : i < n) (c : α) :
    ((List.replicate n c).get? i) = some c := by
  induction n generalizing i with
  | zero => omega
  | succ n ih =>
      cases i with
      | zero => rfl
      | succ i => simpa [List.replicate_succ] using ih (by omega)

/-! ## Lemmas about the resolved burn target -/

theorem find_target_uid_lt_length {mg : Metagraph} {hk : String} {b : ℕ}
    (h : find_target_uid mg hk = some b) : b < mg.length := by
  induction mg generalizing b with
  | nil => simp [find_target_uid] at h
  | cons nr rest ih =>
      by_cases hnr : nr.hotkey = hk
      · simp [find_target_uid, hnr] at h
        simp only [List.length_cons]
        omega
      · simp [find_target_uid, hnr] at h
        obtain ⟨b', hb', rfl⟩ := h
        have := ih hb'
        simp only [List.length_cons]
        omega

theorem find_target_uid_eq_none_iff {mg : Metagraph} {hk : String} :
    find_target_uid mg hk = none ↔ ∀ nr ∈ mg, nr.hotkey ≠ hk := by
  induction mg with
  | nil => simp [find_target_uid]
  | cons nr rest ih =>
      by_cases hnr : nr.hotkey = hk
      · simp [find_target_uid, hnr]
      · simp [find_target_uid, hnr, ih]

/-! ## Lemmas about eligibility and the miner list -/

theorem isEligibleMiner_iff {mg : Metagraph} {banned : List String}
    {burn? : Option Nat} {i : ℕ} :
    isEligibleMiner mg banned burn? i = true ↔
      ∃ nr, mg.get? i = some nr ∧ burn? ≠ some i ∧
        nr.validator_permit = false ∧ nr.hotkey ∉ banned := by
  unfold isEligibleMiner
  cases hrec : mg.get? i with
  | none => simp
  | some nr => simp [hrec, Bool.not_eq_true', and_assoc]

theorem isEligibleMiner_lt_length {mg : Metagraph} {banned : List String}
    {burn? : Option Nat} {i : ℕ}
    (h : isEligibleMiner mg banned burn? i = true) : i < mg.length := by
  obtain ⟨nr, hnr, -⟩ := isEligibleMiner_iff.mp h
  exact List.get?_eq_some.mp hnr |>.choose

theorem isEligibleMiner_ne_burn {mg : Metagraph} {banned : List String}
    {burn? : Option Nat} {i : ℕ}
    (h : isEligibleMiner mg banned burn? i = true) : burn? ≠ some i :=
  (isEligibleMiner_iff.mp h).choose_spec.2.1

theorem mem_minersOf {mg : Metagraph} {banned : List String} {i : ℕ} :
    i ∈ minersOf mg banned ↔
      isEligibleMiner mg banned (burnUidOf mg) i = true := by
  unfold minersOf
  rw [List.mem_filter, List.mem_range]
  constructor
  · exact fun h => h.2
  · exact fun h => ⟨isEligibleMiner_lt_length h, h⟩

theorem minersOf_ne_nil_of_eligible {mg : Metagraph} {banned : List String}
    {i : ℕ} (h : isEligibleMiner mg banned (burnUidOf mg) i = true) :
    minersOf mg banned ≠ [] :=
  List.ne_nil_of_mem (mem_minersOf.mpr h)

/-! ## Lemmas about the drift-correction target -/

theorem foldl_topStep_mem (s : List ℚ) :
    ∀ (l : List Nat) (acc : Nat), l.foldl (topStep s) acc = acc ∨
      l.foldl (topStep s) acc ∈ l := by
  intro l
  induction l with
  | nil => intro acc; left; rfl
  | cons x xs ih =>
      intro acc
      rcases ih (topStep s acc x) with h | h
      · rw [List.foldl_cons, h]
        by_cases hc : s.getD acc 0 < s.getD x 0
        · have hx : topStep s acc x = x := by unfold topStep; rw [if_pos hc]
          right
          rw [hx]
          exact List.mem_cons_self x xs
        · have hx : topStep s acc x = acc := by unfold topStep; rw [if_neg hc]
          left
          exact hx
      · right
        rw [List.foldl_cons]
        exact List.mem_cons_of_mem _ h

theorem foldl_topStep_le (s : List ℚ) :
    ∀ (l : List Nat) (acc : Nat),
      s.getD acc 0 ≤ s.getD (l.foldl (topStep s) acc) 0 ∧
        ∀ m ∈ l, s.getD m 0 ≤ s.getD (l.foldl (topStep s) acc) 0 := by
  intro l
  induction l with
  | nil => intro acc; exact ⟨le_refl _, by simp⟩
  | cons x xs ih =>
      intro acc
      obtain ⟨h1, h2⟩ := ih (topStep s acc x)
      have hax : s.getD acc 0 ≤ s.getD (topStep s acc x) 0 := by
        by_cases hc : s.getD acc 0 < s.getD x 0
        · have hx : topStep s acc x = x := by unfold topStep; rw [if_pos hc]
          rw [hx]; exact le_of_lt hc
        · have hx : topStep s acc x = acc := by unfold topStep; rw [if_neg hc]
          rw [hx]
      have hxx : s.getD x 0 ≤ s.getD (topStep s acc x) 0 := by
        by_cases hc : s.getD acc 0 < s.getD x 0
        · have hx : topStep s acc x = x := by unfold topStep; rw [if_pos hc]
          rw [hx]
        · have hx : topStep s acc x = acc := by unfold topStep; rw [if_neg hc]
          rw [hx]; exact le_of_not_lt hc
      refine ⟨le_trans hax h1, ?_⟩
      intro m hm
      rcases List.mem_cons.mp hm with rfl | hm'
      · exact le_trans hxx h1
      · exact h2 m hm'

theorem topMinerOf_mem {s : List ℚ} {miners : List Nat} (hm : miners ≠ []) :
    topMinerOf s miners ∈ miners := by
  unfold topMinerOf
  rcases foldl_topStep_mem s miners (miners.headD 0) with h | h
  · rw [h]
    obtain ⟨x, xs, rfl⟩ := List.exists_cons_of_ne_nil hm
    simp
  · exact h

theorem topMinerOf_le {s : List ℚ} {miners : List Nat} {m : ℕ}
    (hm : m ∈ miners) :
    s.getD m 0 ≤ s.getD (topMinerOf s miners) 0 :=
  (foldl_topStep_le s miners (miners.headD 0)).2 m hm

/-! ## Numeric facts about the configuration constants -/

theorem round_burn_amount :
    round (EMISSION_CONTROL_PERC * DEFAULT_TOTAL_WEIGHT) = (52428 : ℤ) := by
  norm_num [EMISSION_CONTROL_PERC, DEFAULT_TOTAL_WEIGHT, round_eq]

theorem burnWOf_val (mg : Metagraph) :
    burnWOf mg = if (burnUidOf mg).isSome then 52428 else 0 := by
  unfold burnWOf
  rw [round_burn_amount]

theorem residualOf_val (mg : Metagraph) :
    residualOf mg = if (burnUidOf mg).isSome then 13107 else 65535 := by
  unfold residualOf
  rw [burnWOf_val]
  have h : ⌊DEFAULT_TOTAL_WEIGHT⌋ = (65535 : ℤ) := by
    norm_num [DEFAULT_TOTAL_WEIGHT]
  rw [h]
  by_cases hb : (burnUidOf mg).isSome <;> simp [hb]

theorem base_le_residual (mg : Metagraph) :
    BASE_WEIGHT_FRACTION * DEFAULT_TOTAL_WEIGHT ≤ ((residualOf mg : ℤ) : ℚ) := by
  rw [residualOf_val]
  by_cases hb : (burnUidOf mg).isSome <;>
    simp [hb, BASE_WEIGHT_FRACTION, DEFAULT_TOTAL_WEIGHT] <;> norm_num

/-! ## Non-negativity and normalization of the miner shares -/

theorem getD_nonneg {s : List ℚ} (hnn : ∀ x ∈ s, 0 ≤ x) (m : ℕ) :
    0 ≤ s.getD m 0 := by
  rw [List.getD_eq_get?]
  cases h : s.get? m with
  | none => simp
  | some x =>
      simp only [Option.getD_some]
      exact hnn x (List.get?_mem h)

theorem minerShare_nonneg {s : List ℚ} (hnn : ∀ x ∈ s, 0 ≤ x)
    (miners : List Nat) (i : ℕ) : 0 ≤ minerShare s miners i := by
  unfold minerShare
  split
  · positivity
  · apply div_nonneg (getD_nonneg hnn i)
    apply List.sum_nonneg
    intro x hx
    obtain ⟨j, -, rfl⟩ := List.mem_map.mp hx
    exact getD_nonneg hnn j

theorem minerShare_sum (s : List ℚ) (miners : List Nat) (hm : miners ≠ []) :
    (miners.map (minerShare s miners)).sum = 1 := by
  have hn : (miners.length : ℚ) ≠ 0 := by
    have := List.length_pos.mpr hm
    exact_mod_cast this.ne.symm
  by_cases ht : (miners.map (fun j => s.getD j 0)).sum = 0
  · have hmap : miners.map (minerShare s miners)
        = miners.map (fun _ => 1 / (miners.length : ℚ)) :=
      List.map_congr_left (fun a _ => by unfold minerShare; rw [if_pos ht])
    rw [hmap, sum_map_const, nsmul_eq_mul]
    field_simp
  · have hmap : miners.map (minerShare s miners)
        = miners.map
            (fun j => s.getD j 0 / (miners.map (fun j => s.getD j 0)).sum) :=
      List.map_congr_left (fun a _ => by unfold minerShare; rw [if_neg ht])
    rw [hmap, list_sum_map_div]
    exact div_self ht

theorem minerValue_nonneg {s : List ℚ} (hnn : ∀ x ∈ s, 0 ≤ x)
    (miners : List Nat) (res : ℚ) (i : ℕ) : 0 ≤ minerValue s miners res i := by
  unfold minerValue
  have h1 : (0 : ℚ) ≤ BASE_WEIGHT_FRACTION * DEFAULT_TOTAL_WEIGHT / (miners.length : ℚ) := by
    apply div_nonneg _ (Nat.cast_nonneg _)
    norm_num [BASE_WEIGHT_FRACTION, DEFAULT_TOTAL_WEIGHT]
  have h2 : (0 : ℚ) ≤ minerShare s miners i *
      max 0 (res - BASE_WEIGHT_FRACTION * DEFAULT_TOTAL_WEIGHT) :=
    mul_nonneg (minerShare_nonneg hnn miners i) (le_max_left _ _)
  linarith

theorem minerValue_sum (s : List ℚ) (miners : List Nat) (hm : miners ≠ [])
    (res : ℚ) (hres : BASE_WEIGHT_FRACTION * DEFAULT_TOTAL_WEIGHT ≤ res) :
    (miners.map (minerValue s miners res)).sum = res := by
  have hn : (miners.length : ℚ) ≠ 0 := by
    have := List.length_pos.mpr hm
    exact_mod_cast this.ne.symm
  unfold minerValue
  rw [List.sum_map_add, sum_map_const, nsmul_eq_mul, List.sum_map_mul_right,
    minerShare_sum s miners hm, one_mul,
    max_eq_right (sub_nonneg.mpr hres)]
  field_simp

/-! ## The quantization step and the drift -/

theorem sumQOf_eq (s : List ℚ) (mg : Metagraph) (banned : List String) :
    sumQOf s mg banned
      = ((minersOf mg banned).map
          (fun i => ⌊minerValue s (minersOf mg banned)
            ((residualOf mg : ℤ) : ℚ) i⌋)).sum := by
  unfold sumQOf
  have hcong : ∀ i ∈ List.range mg.length, qOf s mg banned i
      = if isEligibleMiner mg banned (burnUidOf mg) i then
          ⌊minerValue s (minersOf mg banned) ((residualOf mg : ℤ) : ℚ) i⌋
        else 0 := fun i _ => rfl
  rw [List.map_congr_left hcong, sum_map_ite_filter]
  rfl

theorem int_cast_list_sum_map {α : Type} (f : α → ℤ) (l : List α) :
    (((l.map f).sum : ℤ) : ℚ) = (l.map (fun a => ((f a : ℤ) : ℚ))).sum := by
  induction l with
  | nil => simp
  | cons x xs ih => simp [ih]

theorem sumQOf_le_residual (s : List ℚ) (mg : Metagraph) (banned : List String)
    (hm : minersOf mg banned ≠ []) : sumQOf s mg banned ≤ residualOf mg := by
  rw [← @Int.cast_le ℚ]
  rw [sumQOf_eq]
  rw [int_cast_list_sum_map]
  calc ((minersOf mg banned).map
          (fun i => ((⌊minerValue s (minersOf mg banned)
            ((residualOf mg : ℤ) : ℚ) i⌋ : ℤ) : ℚ))).sum
      ≤ ((minersOf mg banned).map
          (fun i => minerValue s (minersOf mg banned)
            ((residualOf mg : ℤ) : ℚ) i)).sum :=
        List.sum_le_sum (fun i _ => Int.floor_le _)
    _ = ((residualOf mg : ℤ) : ℚ) :=
        minerValue_sum s (minersOf mg banned) hm _ (base_le_residual mg)

theorem diffOf_nonneg (s : List ℚ) (mg : Metagraph) (banned : List String)
    (hm : minersOf mg banned ≠ []) : 0 ≤ diffOf s mg banned := by
  unfold diffOf
  have := sumQOf_le_residual s mg banned hm
  omega

/-! ## The shape of the output in the main branch -/

theorem distribute_eq_ok_map (s : List ℚ) (mg : Metagraph)
    (banned : List String) (hl : s.length = mg.length)
    (hm : minersOf mg banned ≠ []) :
    distribute_weights_burn_base_remainder s mg banned
      = .ok ((List.range mg.length).map (finalEntry s mg banned)) := by
  unfold distribute_weights_burn_base_remainder
  rw [if_neg (fun h => h hl), if_neg hm]

theorem getD_of_distribute_ok {s : List ℚ} {mg : Metagraph}
    {banned : List String} {w : List ℤ} (hl : s.length = mg.length)
    (hm : minersOf mg banned ≠ [])
    (hw : distribute_weights_burn_base_remainder s mg banned = .ok w)
    {k : ℕ} (hk : k < mg.length) :
    w.getD k 0 = finalEntry s mg banned k := by
  rw [distribute_eq_ok_map s mg banned hl hm] at hw
  have hww : (List.range mg.length).map (finalEntry s mg banned) = w := by
    injection hw
  rw [← hww]
  exact getD_map_range hk

theorem topMinerOf_not_burn {s : List ℚ} {mg : Metagraph}
    {banned : List String} (hm : minersOf mg banned ≠ []) :
    burnUidOf mg ≠ some (topMinerOf s (minersOf mg banned)) :=
  isEligibleMiner_ne_burn (mem_minersOf.mp (topMinerOf_mem hm))

theorem topMinerOf_lt_length {s : List ℚ} {mg : Metagraph}
    {banned : List String} (hm : minersOf mg banned ≠ []) :
    topMinerOf s (minersOf mg banned) < mg.length :=
  isEligibleMiner_lt_length (mem_minersOf.mp (topMinerOf_mem hm))

theorem qOf_burn_eq_zero {s : List ℚ} {mg : Metagraph} {banned : List String}
    {b : ℕ} (hb : burnUidOf mg = some b) : qOf s mg banned b = 0 := by
  unfold qOf
  rw [if_neg]
  intro hel
  exact isEligibleMiner_ne_burn hel hb

theorem burnUid_lt_length {mg : Metagraph} {b : ℕ}
    (hb : burnUidOf mg = some b) : b < mg.length :=
  find_target_uid_lt_length hb

/-- Central exact-sum lemma: in the main branch the final entries over all
uids add up to exactly 65535. -/
theorem finalEntry_sum (s : List ℚ) (mg : Metagraph) (banned : List String)
    (hm : minersOf mg banned ≠ []) :
    ((List.range mg.length).map (finalEntry s mg banned)).sum = 65535 := by
  have htopmem := topMinerOf_mem (s := s) hm
  have htopN := topMinerOf_lt_length (s := s) hm
  have hdecomp : ∀ i ∈ List.range mg.length, finalEntry s mg banned i
      = (if burnUidOf mg = some i then burnWOf mg else 0)
        + qOf s mg banned i
        + (if i = topMinerOf s (minersOf mg banned) then diffOf s mg banned
            else 0) := by
    intro i _
    unfold finalEntry
    by_cases hb : burnUidOf mg = some i
    · have hitop : i ≠ topMinerOf s (minersOf mg banned) := by
        intro hcontra
        rw [hcontra] at hb
        exact topMinerOf_not_burn hm hb
      rw [if_pos hb, if_pos hb, qOf_burn_eq_zero hb, if_neg hitop]
      ring
    · rw [if_neg hb, if_neg hb]
      ring
  rw [List.map_congr_left hdecomp]
  have hsplit : ∀ i : ℕ,
      ((if burnUidOf mg = some i then burnWOf mg else 0)
        + qOf s mg banned i
        + (if i = topMinerOf s (minersOf mg banned) then diffOf s mg banned
            else 0))
      = ((if burnUidOf mg = some i then burnWOf mg else 0)
          + qOf s mg banned i)
        + (if i = topMinerOf s (minersOf mg banned) then diffOf s mg banned
            else 0) := fun i => rfl
  rw [List.sum_map_add, List.sum_map_add]
  have hburn : ((List.range mg.length).map
      (fun i => if burnUidOf mg = some i then burnWOf mg else 0)).sum
      = burnWOf mg := by
    cases hb : burnUidOf mg with
    | none => simp [burnWOf, hb]
    | some b =>
        have hbN : b < mg.length := burnUid_lt_length hb
        have heq : ∀ i ∈ List.range mg.length,
            (if some b = some i then burnWOf mg else (0 : ℤ))
              = (if b = i then burnWOf mg else 0) := by
          intro i _
          simp
        rw [List.map_congr_left heq, list_range_map_sum,
          Finset.sum_ite_eq (Finset.range mg.length) b (fun _ => burnWOf mg),
          if_pos (Finset.mem_range.mpr hbN)]
  have htop : ((List.range mg.length).map
      (fun i => if i = topMinerOf s (minersOf mg banned)
        then diffOf s mg banned else 0)).sum = diffOf s mg banned := by
    rw [list_range_map_sum,
      Finset.sum_ite_eq' (Finset.range mg.length)
        (topMinerOf s (minersOf mg banned)) (fun _ => diffOf s mg banned),
      if_pos (Finset.mem_range.mpr htopN)]
  rw [hburn, htop]
  show burnWOf mg + sumQOf s mg banned + diffOf s mg banned = 65535
  unfold diffOf residualOf
  have hfl : ⌊DEFAULT_TOTAL_WEIGHT⌋ = (65535 : ℤ) := by
    norm_num [DEFAULT_TOTAL_WEIGHT]
  rw [hfl]
  ring

/-! ## Per-entry characterization of the output -/

theorem finalEntry_burn {s : List ℚ} {mg : Metagraph} {banned : List String}
    {b : ℕ} (hb : burnUidOf mg = some b) :
    finalEntry s mg banned b = burnWOf mg := by
  unfold finalEntry
  rw [if_pos hb]

theorem finalEntry_not_eligible {s : List ℚ} {mg : Metagraph}
    {banned : List String} {k : ℕ} (hm : minersOf mg banned ≠ [])
    (hb : burnUidOf mg ≠ some k)
    (hk : isEligibleMiner mg banned (burnUidOf mg) k = false) :
    finalEntry s mg banned k = 0 := by
  unfold finalEntry
  rw [if_neg hb]
  have hq : qOf s mg banned k = 0 := by
    unfold qOf
    rw [if_neg (by rw [hk]; exact Bool.false_ne_true)]
  have hktop : k ≠ topMinerOf s (minersOf mg banned) := by
    intro hcontra
    have := mem_minersOf.mp (topMinerOf_mem (s := s) hm)
    rw [← hcontra] at this
    rw [hk] at this
    exact Bool.false_ne_true this
  rw [hq, if_neg hktop]
  ring

theorem finalEntry_eligible {s : List ℚ} {mg : Metagraph}
    {banned : List String} {k : ℕ}
    (hk : isEligibleMiner mg banned (burnUidOf mg) k = true) :
    finalEntry s mg banned k
      = ⌊minerValue s (minersOf mg banned) ((residualOf mg : ℤ) : ℚ) k⌋
        + (if k = topMinerOf s (minersOf mg banned) then diffOf s mg banned
            else 0) := by
  unfold finalEntry
  rw [if_neg (isEligibleMiner_ne_burn hk)]
  unfold qOf
  rw [if_pos hk]

theorem finalEntry_nonneg (s : List ℚ) (mg : Metagraph) (banned : List String)
    (hnn : ∀ x ∈ s, 0 ≤ x) (hm : minersOf mg banned ≠ []) (i : ℕ) :
    0 ≤ finalEntry s mg banned i := by
  unfold finalEntry
  by_cases hb : burnUidOf mg = some i
  · rw [if_pos hb, burnWOf_val]
    split <;> norm_num
  · rw [if_neg hb]
    have hq : 0 ≤ qOf s mg banned i := by
      unfold qOf
      split
      · exact Int.floor_nonneg.mpr (minerValue_nonneg hnn _ _ i)
      · exact le_refl 0
    have hd : (0 : ℤ) ≤
        (if i = topMinerOf s (minersOf mg banned) then diffOf s mg banned
          else 0) := by
      split
      · exact diffOf_nonneg s mg banned hm
      · exact le_refl 0
    linarith

/-! ## Monotonicity of the allocation in the score -/

theorem miner_total_pos {s : List ℚ} {mg : Metagraph} {banned : List String}
    {i : ℕ} (hnn : ∀ x ∈ s, 0 ≤ x)
    (hi : isEligibleMiner mg banned (burnUidOf mg) i = true)
    (hpos : 0 < s.getD i 0) :
    0 < ((minersOf mg banned).map (fun j => s.getD j 0)).sum := by
  have hmem : s.getD i 0 ∈ (minersOf mg banned).map (fun j => s.getD j 0) :=
    List.mem_map.mpr ⟨i, mem_minersOf.mpr hi, rfl⟩
  have hall : ∀ x ∈ (minersOf mg banned).map (fun j => s.getD j 0), 0 ≤ x := by
    intro x hx
    obtain ⟨j, -, rfl⟩ := List.mem_map.mp hx
    exact getD_nonneg hnn j
  calc (0 : ℚ) < s.getD i 0 := hpos
    _ ≤ _ := List.single_le_sum hall _ hmem

theorem minerShare_mono {s : List ℚ} (miners : List Nat) {i j : ℕ}
    (hnn : ∀ x ∈ s, 0 ≤ x) (hij : s.getD j 0 ≤ s.getD i 0) :
    minerShare s miners j ≤ minerShare s miners i := by
  unfold minerShare
  split
  · exact le_refl _
  · have ht : 0 ≤ (miners.map (fun j => s.getD j 0)).sum :=
      List.sum_nonneg (fun x hx => by
        obtain ⟨k, -, rfl⟩ := List.mem_map.mp hx
        exact getD_nonneg hnn k)
    exact div_le_div_of_nonneg_right hij ht

/-! ## The degenerate zero-miner branches -/

theorem distribute_no_miners_burn (s : List ℚ) (mg : Metagraph)
    (banned : List String) {b : ℕ} (hl : s.length = mg.length)
    (hm : minersOf mg banned = []) (hb : burnUidOf mg = some b) :
    distribute_weights_burn_base_remainder s mg banned
      = .ok ((List.range mg.length).map fun i => if i = b then (65535 : ℤ)
          else 0) := by
  unfold distribute_weights_burn_base_remainder
  rw [if_neg (fun h => h hl), if_pos hm, hb]

theorem distribute_no_miners_no_burn (s : List ℚ) (mg : Metagraph)
    (banned : List String) (hl : s.length = mg.length)
    (hm : minersOf mg banned = []) (hb : burnUidOf mg = none) :
    distribute_weights_burn_base_remainder s mg banned
      = .ok (List.replicate mg.length 0) := by
  unfold distribute_weights_burn_base_remainder
  rw [if_neg (fun h => h hl), if_pos hm, hb]

theorem sum_singleton_indicator (n b : ℕ) (hb : b < n) (c : ℤ) :
    ((List.range n).map fun i => if i = b then c else 0).sum = c := by
  rw [list_range_map_sum,
    Finset.sum_ite_eq' (Finset.range n) b (fun _ => c),
    if_pos (Finset.mem_range.mpr hb)]

/-! ## Claim theorems -/

/-- Claim C9: when the emission-control toggle is off, the orchestrator entry
point returns, for every score vector, exactly the result of the legacy
ScoreConverter applied to the full score vector with the configured policy
toggle. -/
theorem c9_disabled_passthrough (s : List ℚ) (mg : Metagraph) (my_uid : ℕ)
    (banned : List String) :
    move_miner_weights s mg my_uid banned false
      = .ok (convert_scores_to_weights s USE_RANKING_EMISSION_CONTROL) := rfl

/-- Claim C7: a score vector whose length differs from the registry size
fails with `InputMismatch` and no weight vector is produced; with matching
lengths the error branch is never taken and some weight vector is returned. -/
theorem c7_input_mismatch (s : List ℚ) (mg : Metagraph)
    (banned : List String) :
    (s.length ≠ mg.length →
      distribute_weights_burn_base_remainder s mg banned
        = .error .inputMismatch) ∧
    (s.length = mg.length →
      ∃ w, distribute_weights_burn_base_remainder s mg banned = .ok w) := by
  constructor
  · intro h
    unfold distribute_weights_burn_base_remainder
    rw [if_pos h]
  · intro h
    by_cases hm : minersOf mg banned = []
    · cases hb : burnUidOf mg with
      | none => exact ⟨_, distribute_no_miners_no_burn s mg banned h hm hb⟩
      | some b => exact ⟨_, distribute_no_miners_burn s mg banned h hm hb⟩
    · exact ⟨_, distribute_eq_ok_map s mg banned h hm⟩

/-- Witness for C7 at concrete inputs: a length-1 score vector against the
empty registry errors out, and against a one-miner registry succeeds. -/
theorem c7_witness :
    distribute_weights_burn_base_remainder [1] [] [] = .error .inputMismatch ∧
    ∃ w, distribute_weights_burn_base_remainder [1] [⟨"h0", false⟩] []
      = .ok w :=
  ⟨(c7_input_mismatch [1] [] []).1 (by decide),
    (c7_input_mismatch [1] [⟨"h0", false⟩] []).2 (by decide)⟩

/-- Claim C5: with zero eligible miners the computation still returns without
error; the burn target, when it resolves, receives the whole budget of 65535
and every other uid receives 0, and with no burn target the output is the
all-zero vector. -/
theorem c5_zero_miners (s : List ℚ) (mg : Metagraph) (banned : List String)
    (hl : s.length = mg.length) (hm : minersOf mg banned = []) :
    (∀ b, burnUidOf mg = some b →
      distribute_weights_burn_base_remainder s mg banned
        = .ok ((List.range mg.length).map fun i => if i = b then (65535 : ℤ)
            else 0)) ∧
    (burnUidOf mg = none →
      distribute_weights_burn_base_remainder s mg banned
        = .ok (List.replicate mg.length 0)) :=
  ⟨fun _ hb => distribute_no_miners_burn s mg banned hl hm hb,
    fun hb => distribute_no_miners_no_burn s mg banned hl hm hb⟩

/-- Witness for C5 at scenario C of the spec: uid 0 is the burn hotkey and
uids 1..4 are validators; the output gives 65535 to uid 0 and 0 to the rest. -/
theorem c5_witness :
    distribute_weights_burn_base_remainder [1, 1, 1, 1, 1]
      mgBurnFourValidators []
      = .ok ((List.range 5).map fun i => if i = 0 then (65535 : ℤ) else 0) :=
  (c5_zero_miners [1, 1, 1, 1, 1] mgBurnFourValidators [] (by decide)
    (by decide)).1 0 (by decide)

/-- Claim C2: when the burn target resolves and at least one eligible miner
exists, the burn uid's weight is exactly
`round(EMISSION_CONTROL_PERC * TOTAL_WEIGHT)`, which is 52428 in the observed
configuration, independent of the burn uid's own score. -/
theorem c2_burn_weight (s : List ℚ) (mg : Metagraph) (banned : List String)
    {b : ℕ} {w : List ℤ} (hl : s.length = mg.length)
    (hb : burnUidOf mg = some b) (hm : minersOf mg banned ≠ [])
    (hw : distribute_weights_burn_base_remainder s mg banned = .ok w) :
    w.getD b 0 = round (EMISSION_CONTROL_PERC * DEFAULT_TOTAL_WEIGHT) ∧
      round (EMISSION_CONTROL_PERC * DEFAULT_TOTAL_WEIGHT) = 52428 := by
  have hbN := burnUid_lt_length hb
  rw [getD_of_distribute_ok hl hm hw hbN, finalEntry_burn hb]
  unfold burnWOf
  rw [if_pos (by rw [hb]; rfl)]
  exact ⟨rfl, round_burn_amount⟩

/-- Claim C2 witness at a concrete input: burn hotkey at uid 0, two miners
with scores 2 and 3; the burn entry of the output equals the rounded burn
amount 52428. -/
theorem c2_witness :
    ([52428, 5308, 7799] : List ℤ).getD 0 0
        = round (EMISSION_CONTROL_PERC * DEFAULT_TOTAL_WEIGHT) ∧
      round (EMISSION_CONTROL_PERC * DEFAULT_TOTAL_WEIGHT) = 52428 :=
  c2_burn_weight [1, 2, 3] mgBurnTwoMiners []
    (by decide) (by decide) (by decide)
    (by norm_num [distribute_weights_burn_base_remainder, finalEntry, qOf,
      minersOf, isEligibleMiner, burnUidOf, find_target_uid, minerValue,
      minerShare, sumQOf, diffOf, residualOf, burnWOf, topMinerOf, topStep,
      EMISSION_CONTROL_HOTKEY, EMISSION_CONTROL_PERC, DEFAULT_TOTAL_WEIGHT,
      BASE_WEIGHT_FRACTION, List.range_succ, round_eq, List.filter,
      mgBurnTwoMiners] <;> decide)

/-- Claim C1 (amended): for every valid input in which the burn target
resolves or at least one eligible miner exists, the output has one
non-negative entry per uid and its entries sum to exactly 65535; the original
claim fails only in the corner where neither a burn target nor an eligible
miner exists, in which case the output is the all-zero vector. -/
theorem c1_exact_sum (s : List ℚ) (mg : Metagraph) (banned : List String)
    (hl : s.length = mg.length) (hnn : ∀ x ∈ s, 0 ≤ x)
    (hne : minersOf mg banned ≠ [] ∨ (burnUidOf mg).isSome = true) :
    ∃ w, distribute_weights_burn_base_remainder s mg banned = .ok w ∧
      w.length = mg.length ∧ (∀ x ∈ w, 0 ≤ x) ∧ w.sum = 65535 := by
  by_cases hm : minersOf mg banned = []
  · have hbs : (burnUidOf mg).isSome = true := by
      rcases hne with h | h
      · exact absurd hm h
      · exact h
    obtain ⟨b, hb⟩ := Option.isSome_iff_exists.mp hbs
    have hbN := burnUid_lt_length hb
    refine ⟨_, distribute_no_miners_burn s mg banned hl hm hb, by simp, ?_,
      sum_singleton_indicator _ b hbN _⟩
    intro x hx
    obtain ⟨i, -, rfl⟩ := List.mem_map.mp hx
    split <;> norm_num
  · refine ⟨_, distribute_eq_ok_map s mg banned hl hm, by simp, ?_,
      finalEntry_sum s mg banned hm⟩
    intro x hx
    obtain ⟨i, -, rfl⟩ := List.mem_map.mp hx
    exact finalEntry_nonneg s mg banned hnn hm i

/-- Claim C1 counterexample: a registry consisting of a single validator with
no burn hotkey is a valid input (lengths match), yet the output is the
all-zero vector, whose sum is 0 and not 65535. -/
theorem c1_counterexample :
    distribute_weights_burn_base_remainder [1] [⟨"h0", true⟩] [] = .ok [0] ∧
      ([0] : List ℤ).sum ≠ 65535 :=
  ⟨rfl, by decide⟩

/-- Claim C1 witness at a concrete input: burn hotkey plus two miners,
scores 1, 2, 3. -/
theorem c1_witness :
    ∃ w, distribute_weights_burn_base_remainder [1, 2, 3] mgBurnTwoMiners []
        = .ok w ∧ w.length = mgBurnTwoMiners.length ∧ (∀ x ∈ w, 0 ≤ x) ∧
        w.sum = 65535 :=
  c1_exact_sum [1, 2, 3] mgBurnTwoMiners [] (by decide) (by norm_num)
    (Or.inl (by decide))

/-- Claim C6 (amended): when the burn hotkey is absent from the registry the
computation is skipped silently, without error, and, provided at least one
eligible miner exists, the full budget is distributed so the output sums to
65535; with no eligible miner either, the output degenerates to the all-zero
vector. -/
theorem c6_no_burn_full_distribution (s : List ℚ) (mg : Metagraph)
    (banned : List String) (hl : s.length = mg.length)
    (hb : burnUidOf mg = none) (hm : minersOf mg banned ≠ []) :
    ∃ w, distribute_weights_burn_base_remainder s mg banned = .ok w ∧
      w.sum = 65535 :=
  ⟨_, distribute_eq_ok_map s mg banned hl hm, finalEntry_sum s mg banned hm⟩

/-- Claim C6 counterexample: with the burn hotkey absent and only validators
in the registry no error is raised, but the output sums to 0, not 65535. -/
theorem c6_counterexample :
    burnUidOf mgTwoValidators = none ∧
    distribute_weights_burn_base_remainder [1, 1] mgTwoValidators []
      = .ok [0, 0] ∧
    ([0, 0] : List ℤ).sum ≠ 65535 :=
  ⟨rfl, rfl, by decide⟩

/-- Claim C6 witness at scenario B of the spec: burn hotkey absent, five
equal-scored miners. -/
theorem c6_witness :
    ∃ w, distribute_weights_burn_base_remainder [1, 1, 1, 1, 1] mgFiveMiners
        [] = .ok w ∧ w.sum = 65535 :=
  c6_no_burn_full_distribution [1, 1, 1, 1, 1] mgFiveMiners [] (by decide)
    (by decide) (by decide)

/-- Claim C3 (amended): every uid that is not the burn target and whose
record either carries a validator permit or a banned hotkey receives weight 0
on every input; the burn-target exception applies to validators as well as to
banned hotkeys, because burn-target status takes precedence over both
exclusions. -/
theorem c3_excluded_get_zero (s : List ℚ) (mg : Metagraph)
    (banned : List String) (k : ℕ) (nr : NeuronRecord) {w : List ℤ}
    (hl : s.length = mg.length) (hrec : mg.get? k = some nr)
    (hvb : nr.validator_permit = true ∨ nr.hotkey ∈ banned)
    (hnb : burnUidOf mg ≠ some k)
    (hw : distribute_weights_burn_base_remainder s mg banned = .ok w) :
    w.getD k 0 = 0 := by
  have hkN : k < mg.length := (List.get?_eq_some.mp hrec).choose
  have hk : isEligibleMiner mg banned (burnUidOf mg) k = false := by
    rw [← Bool.not_eq_true]
    intro htrue
    obtain ⟨nr', hrec', -, hperm, hban⟩ := isEligibleMiner_iff.mp htrue
    rw [hrec] at hrec'
    injection hrec' with hnr
    subst hnr
    rcases hvb with hv | hbn
    · rw [hv] at hperm
      exact Bool.noConfusion hperm
    · exact hban hbn
  by_cases hm : minersOf mg banned = []
  · cases hbu : burnUidOf mg with
    | none =>
        rw [distribute_no_miners_no_burn s mg banned hl hm hbu] at hw
        injection hw with hw
        rw [← hw, getD_replicate hkN]
    | some b =>
        rw [distribute_no_miners_burn s mg banned hl hm hbu] at hw
        injection hw with hw
        rw [← hw, getD_map_range hkN]
        rw [if_neg]
        intro hkb
        apply hnb
        rw [hbu, hkb]
  · rw [getD_of_distribute_ok hl hm hw hkN]
    exact finalEntry_not_eligible hm hnb hk

/-- Claim C3 counterexample: when the burn hotkey itself carries a validator
permit, the burn uid still receives the full burn amount 52428 rather than 0,
so the claim's unconditional statement for validators fails. -/
theorem c3_counterexample :
    mgValidatorBurn.get? 0 = some ⟨EMISSION_CONTROL_HOTKEY, true⟩ ∧
    distribute_weights_burn_base_remainder [1, 1] mgValidatorBurn []
      = .ok [52428, 13107] ∧
    (52428 : ℤ) ≠ 0 := by
  refine ⟨rfl, ?_, by decide⟩
  norm_num [distribute_weights_burn_base_remainder, finalEntry, qOf,
    minersOf, isEligibleMiner, burnUidOf, find_target_uid, minerValue,
    minerShare, sumQOf, diffOf, residualOf, burnWOf, topMinerOf, topStep,
    EMISSION_CONTROL_HOTKEY, EMISSION_CONTROL_PERC, DEFAULT_TOTAL_WEIGHT,
    BASE_WEIGHT_FRACTION, List.range_succ, round_eq, List.filter,
    mgValidatorBurn] <;> decide

/-- Claim C3 witness at a concrete input: a non-burn validator at uid 1 and a
banned hotkey at uid 2 both receive weight 0. -/
theorem c3_witness :
    ([52428, 0, 13107] : List ℤ).getD 1 0 = 0 :=
  c3_excluded_get_zero [1, 1, 1]
    [⟨EMISSION_CONTROL_HOTKEY, false⟩, ⟨"h1", true⟩, ⟨"h2", false⟩]
    [] 1 ⟨"h1", true⟩
    (by decide) (by decide) (Or.inl rfl) (by decide)
    (by norm_num [distribute_weights_burn_base_remainder, finalEntry, qOf,
      minersOf, isEligibleMiner, burnUidOf, find_target_uid, minerValue,
      minerShare, sumQOf, diffOf, residualOf, burnWOf, topMinerOf, topStep,
      EMISSION_CONTROL_HOTKEY, EMISSION_CONTROL_PERC, DEFAULT_TOTAL_WEIGHT,
      BASE_WEIGHT_FRACTION, List.range_succ, round_eq, List.filter] <;>
      decide)

/-- Claim C4: for two eligible miners, a strictly higher score never yields a
strictly smaller final integer weight, across the base amount, the remainder
share, the floor quantization and the single-uid drift correction. -/
theorem c4_monotone (s : List ℚ) (mg : Metagraph) (banned : List String)
    {i j : ℕ} {w : List ℤ} (hl : s.length = mg.length)
    (hnn : ∀ x ∈ s, 0 ≤ x)
    (hi : isEligibleMiner mg banned (burnUidOf mg) i = true)
    (hj : isEligibleMiner mg banned (burnUidOf mg) j = true)
    (hij : s.getD j 0 < s.getD i 0)
    (hw : distribute_weights_burn_base_remainder s mg banned = .ok w) :
    w.getD j 0 ≤ w.getD i 0 := by
  have hm := minersOf_ne_nil_of_eligible hi
  have hiN := isEligibleMiner_lt_length hi
  have hjN := isEligibleMiner_lt_length hj
  rw [getD_of_distribute_ok hl hm hw hiN, getD_of_distribute_ok hl hm hw hjN,
    finalEntry_eligible hi, finalEntry_eligible hj]
  have hjtop : j ≠ topMinerOf s (minersOf mg banned) := by
    intro hcontra
    have hle := topMinerOf_le (s := s) (mem_minersOf.mpr hi)
    rw [← hcontra] at hle
    exact absurd hle (not_le.mpr hij)
  rw [if_neg hjtop]
  have hfl : ⌊minerValue s (minersOf mg banned) ((residualOf mg : ℤ) : ℚ) j⌋
      ≤ ⌊minerValue s (minersOf mg banned) ((residualOf mg : ℤ) : ℚ) i⌋ := by
    apply Int.floor_le_floor
    unfold minerValue
    have hsh := minerShare_mono (minersOf mg banned) hnn hij.le
    have hmax : (0 : ℚ) ≤ max 0 (((residualOf mg : ℤ) : ℚ)
        - BASE_WEIGHT_FRACTION * DEFAULT_TOTAL_WEIGHT) := le_max_left _ _
    have := mul_le_mul_of_nonneg_right hsh hmax
    linarith
  by_cases hitop : i = topMinerOf s (minersOf mg banned)
  · rw [if_pos hitop]
    have := diffOf_nonneg s mg banned hm
    linarith
  · rw [if_neg hitop]
    linarith

/-- Claim C4 witness at a concrete input: burn hotkey plus four miners with
scores 1 < 2 < 3 < 4; the miner with score 3 gets no more weight than the one
with score 4. -/
theorem c4_witness :
    ([52428, 1409, 2654, 3899, 5145] : List ℤ).getD 3 0
      ≤ ([52428, 1409, 2654, 3899, 5145] : List ℤ).getD 4 0 :=
  c4_monotone [0, 1, 2, 3, 4] mgBurnFourMiners []
    (i := 4) (j := 3)
    (by decide) (by norm_num) (by decide) (by decide) (by norm_num)
    (by norm_num [distribute_weights_burn_base_remainder, finalEntry, qOf,
      minersOf, isEligibleMiner, burnUidOf, find_target_uid, minerValue,
      minerShare, sumQOf, diffOf, residualOf, burnWOf, topMinerOf, topStep,
      EMISSION_CONTROL_HOTKEY, EMISSION_CONTROL_PERC, DEFAULT_TOTAL_WEIGHT,
      BASE_WEIGHT_FRACTION, List.range_succ, round_eq, List.filter,
      mgBurnFourMiners] <;> decide)

/-! ## The legacy converter and burn backward compatibility -/

theorem proportionalShares_sum {s : List ℚ} (hs : s ≠ []) :
    (proportionalShares s).sum = 1 := by
  have hn : (s.length : ℚ) ≠ 0 := by
    have := List.length_pos.mpr hs
    exact_mod_cast this.ne.symm
  unfold proportionalShares
  split
  · rw [sum_map_const, nsmul_eq_mul]
    field_simp
  · rename_i ht
    rw [show (s.map fun x => x / s.sum) = (s.map fun x => (fun y => y) x / s.sum)
        from rfl,
      list_sum_map_div s (fun y => y) s.sum, List.map_id']
    exact div_self ht

theorem convert_sum {s : List ℚ} (hs : s ≠ []) :
    (convert_scores_to_weights s USE_RANKING_EMISSION_CONTROL).sum
      = DEFAULT_TOTAL_WEIGHT := by
  unfold convert_scores_to_weights USE_RANKING_EMISSION_CONTROL
  rw [if_neg Bool.false_ne_true]
  rw [show ((proportionalShares s).map fun x => x * DEFAULT_TOTAL_WEIGHT)
      = ((proportionalShares s).map fun x => (fun y => y) x * DEFAULT_TOTAL_WEIGHT)
      from rfl,
    List.sum_map_mul_right, List.map_id', proportionalShares_sum hs, one_mul]

theorem convert_length (s : List ℚ) :
    (convert_scores_to_weights s USE_RANKING_EMISSION_CONTROL).length
      = s.length := by
  unfold convert_scores_to_weights USE_RANKING_EMISSION_CONTROL
    proportionalShares
  rw [if_neg Bool.false_ne_true]
  split <;> simp

/-- Claim C10 (amended): for every input where the burn target resolves, at
least one eligible miner exists, and the legacy weight vector assigns nonzero
total weight to the non-burn uids, the burn entry of the new pipeline equals
the rounded real-valued burn weight of the legacy burn computation; the
original unconditional claim fails when no eligible miner exists. -/
theorem c10_burn_backcompat (s : List ℚ) (mg : Metagraph)
    (banned : List String) {b : ℕ} {w : List ℤ} (hl : s.length = mg.length)
    (hb : burnUidOf mg = some b) (hm : minersOf mg banned ≠ [])
    (hother : (convert_scores_to_weights s USE_RANKING_EMISSION_CONTROL).sum
      - (convert_scores_to_weights s USE_RANKING_EMISSION_CONTROL).getD b 0
        ≠ 0)
    (hw : distribute_weights_burn_base_remainder s mg banned = .ok w) :
    w.getD b 0 = round ((burn_weights_old
        (convert_scores_to_weights s USE_RANKING_EMISSION_CONTROL) mg
        EMISSION_CONTROL_PERC).getD b 0) := by
  have hbN := burnUid_lt_length hb
  have hsne : s ≠ [] := by
    intro hcontra
    rw [hcontra] at hl
    simp only [List.length_nil] at hl
    omega
  have hlhs : w.getD b 0 = 52428 := by
    rw [getD_of_distribute_ok hl hm hw hbN, finalEntry_burn hb]
    unfold burnWOf
    rw [if_pos (by rw [hb]; rfl), round_burn_amount]
  have hblen : b < (convert_scores_to_weights s
      USE_RANKING_EMISSION_CONTROL).length := by
    rw [convert_length]
    omega
  unfold burn_weights_old
  unfold burnUidOf at hb
  split
  · rename_i heq
    rw [hb] at heq
    exact absurd heq (by simp)
  · rename_i t heq
    rw [hb] at heq
    injection heq with ht
    subst ht
    rw [if_neg (by omega)]
    rw [if_neg hother]
    rw [getD_map_range hblen]
    rw [if_pos rfl]
    rw [convert_sum hsne, hlhs]
    exact round_burn_amount.symm

/-- Claim C10 counterexample: with a burn target but zero eligible miners the
new pipeline gives the burn uid the whole budget 65535, while the legacy burn
computation gives it 52428, so the unconditional claim fails. -/
theorem c10_counterexample :
    burnUidOf mgBurnOneValidator = some 0 ∧
    distribute_weights_burn_base_remainder [1, 1] mgBurnOneValidator []
      = .ok [65535, 0] ∧
    round ((burn_weights_old
        (convert_scores_to_weights [1, 1] USE_RANKING_EMISSION_CONTROL)
        mgBurnOneValidator EMISSION_CONTROL_PERC).getD 0 0) = 52428 ∧
    (65535 : ℤ) ≠ 52428 := by
  refine ⟨rfl, rfl, ?_, by decide⟩
  norm_num [burn_weights_old, convert_scores_to_weights, proportionalShares,
    USE_RANKING_EMISSION_CONTROL, EMISSION_CONTROL_PERC,
    DEFAULT_TOTAL_WEIGHT, find_target_uid, EMISSION_CONTROL_HOTKEY,
    mgBurnOneValidator, round_eq, List.range_succ]

/-- Claim C10 witness at a concrete input: burn hotkey plus two miners; both
the new pipeline and the rounded legacy computation give the burn uid
52428. -/
theorem c10_witness :
    ([52428, 5308, 7799] : List ℤ).getD 0 0
      = round ((burn_weights_old
          (convert_scores_to_weights [1, 2, 3] USE_RANKING_EMISSION_CONTROL)
          mgBurnTwoMiners EMISSION_CONTROL_PERC).getD 0 0) :=
  c10_burn_backcompat [1, 2, 3] mgBurnTwoMiners []
    (by decide) (by decide) (by decide)
    (by norm_num [convert_scores_to_weights, proportionalShares,
      USE_RANKING_EMISSION_CONTROL, DEFAULT_TOTAL_WEIGHT])
    (by norm_num [distribute_weights_burn_base_remainder, finalEntry, qOf,
      minersOf, isEligibleMiner, burnUidOf, find_target_uid, minerValue,
      minerShare, sumQOf, diffOf, residualOf, burnWOf, topMinerOf, topStep,
      EMISSION_CONTROL_HOTKEY, EMISSION_CONTROL_PERC, DEFAULT_TOTAL_WEIGHT,
      BASE_WEIGHT_FRACTION, List.range_succ, round_eq, List.filter,
      mgBurnTwoMiners] <;> decide)

/-! ## Strict positivity for eligible miners -/

/-- Claim C8 (amended): when at least one eligible miner exists, every
eligible miner's weight is at least the floor of the flat base share, hence
strictly positive whenever the registry holds at most 655 eligible miners (in
particular in the 5-equal-miner scenario of the spec); for 656 or more miners
the integer base share can round down to zero. -/
theorem c8_miner_positive (s : List ℚ) (mg : Metagraph)
    (banned : List String) {i : ℕ} {w : List ℤ} (hl : s.length = mg.length)
    (hnn : ∀ x ∈ s, 0 ≤ x)
    (hi : isEligibleMiner mg banned (burnUidOf mg) i = true)
    (hn : (minersOf mg banned).length ≤ 655)
    (hw : distribute_weights_burn_base_remainder s mg banned = .ok w) :
    0 < w.getD i 0 := by
  have hm := minersOf_ne_nil_of_eligible hi
  have hiN := isEligibleMiner_lt_length hi
  rw [getD_of_distribute_ok hl hm hw hiN, finalEntry_eligible hi]
  have hnpos : (0 : ℚ) < ((minersOf mg banned).length : ℚ) := by
    exact_mod_cast List.length_pos.mpr hm
  have hfl : (1 : ℤ) ≤ ⌊minerValue s (minersOf mg banned)
      ((residualOf mg : ℤ) : ℚ) i⌋ := by
    rw [Int.le_floor]
    unfold minerValue
    have h1 : (1 : ℚ) ≤ BASE_WEIGHT_FRACTION * DEFAULT_TOTAL_WEIGHT
        / ((minersOf mg banned).length : ℚ) := by
      rw [le_div_iff hnpos, one_mul]
      calc ((minersOf mg banned).length : ℚ) ≤ 655 := by exact_mod_cast hn
        _ ≤ BASE_WEIGHT_FRACTION * DEFAULT_TOTAL_WEIGHT := by
            norm_num [BASE_WEIGHT_FRACTION, DEFAULT_TOTAL_WEIGHT]
    have h2 : (0 : ℚ) ≤ minerShare s (minersOf mg banned) i *
        max 0 (((residualOf mg : ℤ) : ℚ)
          - BASE_WEIGHT_FRACTION * DEFAULT_TOTAL_WEIGHT) :=
      mul_nonneg (minerShare_nonneg hnn _ i) (le_max_left _ _)
    push_cast
    linarith
  have hd : (0 : ℤ) ≤
      (if i = topMinerOf s (minersOf mg banned) then diffOf s mg banned
        else 0) := by
    split
    · exact diffOf_nonneg s mg banned hm
    · exact le_refl 0
  linarith

/-- Claim C8 witness at scenario B of the spec: five equal-scored miners and
no burn target; the miner at uid 2 receives strictly positive weight. -/
theorem c8_witness :
    0 < ([13107, 13107, 13107, 13107, 13107] : List ℤ).getD 2 0 :=
  c8_miner_positive [1, 1, 1, 1, 1] mgFiveMiners []
    (i := 2)
    (by decide) (by norm_num) (by decide) (by decide)
    (by
      have hminers : minersOf mgFiveMiners [] = [0, 1, 2, 3, 4] := by decide
      have hburn : burnUidOf mgFiveMiners = none := by decide
      have hlen : mgFiveMiners.length = 5 := by decide
      rw [distribute_eq_ok_map _ _ _ (by decide) (by rw [hminers]; decide)]
      norm_num [finalEntry, qOf, sumQOf, diffOf, topMinerOf, topStep,
        minerValue, minerShare, hminers, hburn, hlen, residualOf, burnWOf,
        EMISSION_CONTROL_PERC, DEFAULT_TOTAL_WEIGHT, BASE_WEIGHT_FRACTION,
        List.range_succ, round_eq]
      decide)

theorem map_range_getD_eq_self {α : Type} (l : List α) (d : α) :
    (List.range l.length).map (fun j => l.getD j d) = l := by
  apply List.ext_get (by simp)
  intro n h1 h2
  have h1' : n < l.length := by simpa using h1
  have hgd : ((List.range l.length).map (fun j => l.getD j d)).get ⟨n, h1⟩
      = ((List.range l.length).map (fun j => l.getD j d)).getD n d := by
    rw [List.getD_eq_get?, List.get?_eq_get h1, Option.getD_some]
  rw [hgd, getD_map_range h1', List.getD_eq_get?, List.get?_eq_get h2,
    Option.getD_some]

/-- Claim C8 counterexample: in a registry of 656 plain miners with no burn
target, the zero-scored miner at uid 655 is eligible yet receives integer
weight 0, because the flat base share 655.35/656 is below one unit and its
proportional remainder share is zero. -/
theorem c8_counterexample :
    isEligibleMiner mgManyMiners [] (burnUidOf mgManyMiners) 655 = true ∧
    ∃ w, distribute_weights_burn_base_remainder sManyMiners mgManyMiners []
        = .ok w ∧ w.getD 655 0 = 0 := by
  have hlen : mgManyMiners.length = 656 := by
    unfold mgManyMiners
    rw [List.length_replicate]
  have hslen : sManyMiners.length = 656 := by
    unfold sManyMiners
    rw [List.length_append, List.length_replicate]
    rfl
  have hburn : burnUidOf mgManyMiners = none := by
    unfold burnUidOf
    rw [find_target_uid_eq_none_iff]
    intro nr hnr
    rw [List.eq_of_mem_replicate hnr]
    decide
  have hel : ∀ i, i < 656 → isEligibleMiner mgManyMiners []
      (burnUidOf mgManyMiners) i = true := by
    intro i hi
    rw [isEligibleMiner_iff]
    refine ⟨⟨"m", false⟩, get?_replicate_of_lt hi _, ?_, rfl, by simp⟩
    rw [hburn]
    simp
  have hminers : minersOf mgManyMiners [] = List.range 656 := by
    unfold minersOf
    rw [hlen]
    apply List.filter_eq_self.mpr
    intro a ha
    exact hel a (List.mem_range.mp ha)
  have hm : minersOf mgManyMiners [] ≠ [] := by
    rw [hminers]
    intro hc
    have := List.range_eq_nil.mp hc
    omega
  have hl : sManyMiners.length = mgManyMiners.length := by rw [hslen, hlen]
  have hgetD655 : sManyMiners.getD 655 0 = 0 := by
    unfold sManyMiners
    rw [List.getD_append_right _ _ _ _ (List.length_replicate 655 1).le,
      List.length_replicate]
    rfl
  have hgetD0 : sManyMiners.getD 0 0 = 1 := by
    unfold sManyMiners
    rw [List.getD_append _ _ _ _ (by rw [List.length_replicate]; norm_num)]
    exact getD_replicate (by norm_num) _ _
  have htopne : (655 : ℕ)
      ≠ topMinerOf sManyMiners (minersOf mgManyMiners []) := by
    intro hcontra
    have h0mem : (0 : ℕ) ∈ minersOf mgManyMiners [] := by
      rw [hminers]
      exact List.mem_range.mpr (by norm_num)
    have hle := topMinerOf_le (s := sManyMiners) h0mem
    rw [← hcontra, hgetD0, hgetD655] at hle
    norm_num at hle
  have hres : residualOf mgManyMiners = 65535 := by
    rw [residualOf_val, hburn]
    rfl
  have htot : ((minersOf mgManyMiners []).map
      (fun j => sManyMiners.getD j 0)).sum = 655 := by
    rw [hminers, show (656 : ℕ) = sManyMiners.length from hslen.symm,
      map_range_getD_eq_self]
    unfold sManyMiners
    rw [List.sum_append, List.sum_replicate, nsmul_eq_mul]
    norm_num
  refine ⟨hel 655 (by norm_num),
    ⟨_, distribute_eq_ok_map _ _ _ hl hm, ?_⟩⟩
  rw [getD_map_range (by rw [hlen]; norm_num)]
  rw [finalEntry_eligible (hel 655 (by norm_num))]
  rw [if_neg htopne, add_zero, hres]
  unfold minerValue minerShare
  rw [htot, if_neg (by norm_num), hgetD655, hminers]
  norm_num [BASE_WEIGHT_FRACTION, DEFAULT_TOTAL_WEIGHT, List.length_range]
